import Mathlib

/-!
# Verification of the `im-ruscal` S-expression parser

Shallow embedding of `src/main.rs`: a lexer (`whitespace`, `ident`, `number`,
`lparen`, `rparen`, `token`) over a character-list cursor, and the recursive
tree builder `source`.  Rust string slices become `List Char` (a cursor is the
list of remaining characters, always a suffix of the original input);
`Option`-returning Rust functions become `Option`-returning Lean functions.
The `f64` payload of `Token::Number` is modelled as an exact rational `ℚ`:
every numeric value appearing in the claims (123, 456, 1, ...) is exactly
representable in binary64, so no claim depends on rounding.
-/

abbrev Str := List Char

/-- `advance_char`: drop the first character of the cursor (Rust
`chars.next(); chars.as_str()`). -/
def advance_char (input : Str) : Str := input.tail

/-- `peek_char`: look at the first character of the cursor without
consuming it. -/
def peek_char (input : Str) : Option Char := input.head?

/-- First-character test of Rust `ident`:
`matches!(peek_char(input), Some('a'..='z' | 'A'..='Z'))`.
Char ranges compare Unicode scalar values, hence the `toNat` bounds
(65–90 = `A`–`Z`, 97–122 = `a`–`z`). -/
def isIdentStart (c : Char) : Bool :=
  decide (65 ≤ c.toNat ∧ c.toNat ≤ 90) || decide (97 ≤ c.toNat ∧ c.toNat ≤ 122)

/-- Continuation test of Rust `ident`: `'a'..='z' | 'A'..='Z' | '0'..='9'`. -/
def isIdentCont (c : Char) : Bool :=
  isIdentStart c || decide (48 ≤ c.toNat ∧ c.toNat ≤ 57)

/-- First-character test of Rust `number`: `'-' | '+' | '.' | '0'..='9'`
(45 = `-`, 43 = `+`, 46 = `.`, 48–57 = `0`–`9`). -/
def isNumStart (c : Char) : Bool :=
  decide (c.toNat = 45) || decide (c.toNat = 43) || decide (c.toNat = 46) ||
    decide (48 ≤ c.toNat ∧ c.toNat ≤ 57)

/-- Continuation test of Rust `number`: `'.' | '0'..='9'`. -/
def isNumCont (c : Char) : Bool :=
  decide (c.toNat = 46) || decide (48 ≤ c.toNat ∧ c.toNat ≤ 57)

/-- `Token<'src>` from the source.  `Ident` carries the borrowed substring;
`Number` carries the parsed value (modelled in `ℚ`, see the file header). -/
inductive Token where
  | Ident (s : Str)
  | Number (v : ℚ)
  | LParen
  | RParen
deriving DecidableEq, Repr

/-- `TokenTree<'src>` from the source: a leaf token or an ordered list of
children. -/
inductive TokenTree where
  | Token (t : Token)
  | Tree (ts : List TokenTree)

/-- `whitespace`: advance over consecutive `' '` characters. -/
def whitespace (input : Str) : Str :=
  match input with
  | c :: rest => if c = ' ' then whitespace rest else c :: rest
  | [] => []

/-- Numeric value of a digit string (most significant digit first), as in the
integer part of a decimal literal. -/
def digitsVal (ds : Str) : ℕ :=
  ds.foldl (fun a c => 10 * a + (c.toNat - 48)) 0

/-- Sign-free part of the `f64` grammar accepted by Rust
`str::parse::<f64>` on the strings this lexer can capture (digits and dots
only — `inf`/`nan`/exponents cannot occur because `number` captures no
letters and no interior signs): `Digit+`, `Digit+ '.' Digit*`, or
`Digit* '.' Digit+`.  The value is the exact decimal rational. -/
def parseMantissa (s : Str) : Option ℚ :=
  let ip := s.takeWhile Char.isDigit
  match s.dropWhile Char.isDigit with
  | [] => if ip.isEmpty then none else some ((digitsVal ip : ℕ) : ℚ)
  | '.' :: frac =>
    if frac.all Char.isDigit then
      if ip.isEmpty && frac.isEmpty then none
      else some (((digitsVal ip : ℕ) : ℚ) + ((digitsVal frac : ℕ) : ℚ) / 10 ^ frac.length)
    else none
  | _ => none

/-- Model of Rust `str::parse::<f64>` (on the capturable strings):
an optional leading sign followed by the mantissa grammar. -/
def parseF64 (s : Str) : Option ℚ :=
  match s with
  | '+' :: rest => parseMantissa rest
  | '-' :: rest => (parseMantissa rest).map (fun v => -v)
  | _ => parseMantissa s

/-- `ident`: if the head is an ASCII letter, greedily consume letters and
digits and return the matched substring as `Token::Ident`. -/
def ident (input : Str) : Option (Str × Token) :=
  match input with
  | c :: rest =>
    if isIdentStart c then
      some (rest.dropWhile isIdentCont, Token.Ident (c :: rest.takeWhile isIdentCont))
    else none
  | [] => none

/-- `number`: if the head is `+`, `-`, `.` or a digit, consume it and then
greedily consume digits and dots; the captured substring must parse as a
float or the match fails (fail-open, nothing consumed). -/
def number (input : Str) : Option (Str × Token) :=
  match input with
  | c :: rest =>
    if isNumStart c then
      match parseF64 (c :: rest.takeWhile isNumCont) with
      | some v => some (rest.dropWhile isNumCont, Token.Number v)
      | none => none
    else none
  | [] => none

/-- `lparen`: match exactly `(`. -/
def lparen (input : Str) : Option (Str × Token) :=
  match input with
  | '(' :: rest => some (rest, Token.LParen)
  | _ => none

/-- `rparen`: match exactly `)`. -/
def rparen (input : Str) : Option (Str × Token) :=
  match input with
  | ')' :: rest => some (rest, Token.RParen)
  | _ => none

/-- `token`: try `ident`, `number`, `lparen`, `rparen` in this order, each on
the whitespace-trimmed cursor; `None` if no category matches. -/
def token (input : Str) : Option (Str × Token) :=
  match ident (whitespace input) with
  | some res => some res
  | none =>
    match number (whitespace input) with
    | some res => some res
    | none =>
      match lparen (whitespace input) with
      | some res => some res
      | none =>
        match rparen (whitespace input) with
        | some res => some res
        | none => none

/-- Fuelled functional rendering of the `source` loop.  One call builds the
ordered child list of the current level: leaf tokens are appended, `LParen`
recurses for a nested tree, `RParen` ends the level returning the cursor past
the close-paren, and end of input or a failed `token` ends the level with the
cursor unchanged.  The fuel only serves termination; `input.length + 1` is
always enough because every successful `token` strictly shortens the
cursor (`goF_stable` below). -/
def goF : ℕ → Str → Str × List TokenTree
  | 0, input => (input, [])
  | n + 1, input =>
    if input = [] then (input, [])
    else
      match token input with
      | none => (input, [])
      | some (next, Token.RParen) => (next, [])
      | some (next, Token.LParen) =>
        let p := goF n next
        let q := goF n p.1
        (q.1, TokenTree.Tree p.2 :: q.2)
      | some (next, t) =>
        let q := goF n next
        (q.1, TokenTree.Token t :: q.2)

/-- The `source` loop with adequate fuel. -/
def go (input : Str) : Str × List TokenTree := goF (input.length + 1) input

/-- `source`: the top-level builder; the child list of the current level
wrapped as a `TokenTree::Tree`. -/
def source (input : Str) : Str × TokenTree :=
  ((go input).1, TokenTree.Tree (go input).2)

/-! ## Basic lemmas about the lexer -/

theorem token_nil : token [] = none := rfl

theorem whitespace_cons_of_ne {c : Char} (l : Str) (h : ¬ c = ' ') :
    whitespace (c :: l) = c :: l := by
  simp [whitespace, h]

theorem whitespace_suffix (input : Str) : whitespace input <:+ input := by
  induction input with
  | nil => simp [whitespace]
  | cons c l ih =>
    by_cases h : c = ' '
    · simpa [whitespace, h] using ih.trans (List.suffix_cons c l)
    · simp [whitespace, h]

theorem whitespace_spaces (n : ℕ) (x : Str) :
    whitespace (List.replicate n ' ' ++ x) = whitespace x := by
  induction n with
  | zero => simp
  | succ n ih => simpa [List.replicate_succ, whitespace] using ih

theorem numStart_not_identStart {c : Char} (h : isNumStart c = true) :
    isIdentStart c = false := by
  simp only [isNumStart, Bool.or_eq_true, decide_eq_true_eq] at h
  simp only [isIdentStart, Bool.or_eq_false_iff, decide_eq_false_iff_not]
  omega

theorem identStart_ne_space {c : Char} (h : isIdentStart c = true) : ¬ c = ' ' := by
  intro h'; subst h'; exact absurd h (by decide)

theorem numStart_ne_space {c : Char} (h : isNumStart c = true) : ¬ c = ' ' := by
  intro h'; subst h'; exact absurd h (by decide)

/-- Inversion of `ident`. -/
theorem ident_inv {input r : Str} {t : Token} (h : ident input = some (r, t)) :
    ∃ c rest, input = c :: rest ∧ isIdentStart c = true ∧
      r = rest.dropWhile isIdentCont ∧ t = Token.Ident (c :: rest.takeWhile isIdentCont) := by
  match input with
  | [] => simp [ident] at h
  | c :: rest =>
    by_cases hc : isIdentStart c
    · simp only [ident, if_pos hc, Option.some.injEq, Prod.mk.injEq] at h
      exact ⟨c, rest, rfl, hc, h.1.symm, h.2.symm⟩
    · simp [ident, hc] at h

/-- Inversion of `number`. -/
theorem number_inv {input r : Str} {t : Token} (h : number input = some (r, t)) :
    ∃ c rest v, input = c :: rest ∧ isNumStart c = true ∧
      parseF64 (c :: rest.takeWhile isNumCont) = some v ∧
      r = rest.dropWhile isNumCont ∧ t = Token.Number v := by
  match input with
  | [] => simp [number] at h
  | c :: rest =>
    by_cases hc : isNumStart c
    · simp only [number, if_pos hc] at h
      match hp : parseF64 (c :: rest.takeWhile isNumCont) with
      | some v =>
        rw [hp] at h
        simp only [Option.some.injEq, Prod.mk.injEq] at h
        exact ⟨c, rest, v, rfl, hc, hp, h.1.symm, h.2.symm⟩
      | none => rw [hp] at h; simp at h
    · simp [number, hc] at h

/-- Inversion of `lparen`. -/
theorem lparen_inv {input r : Str} {t : Token} (h : lparen input = some (r, t)) :
    input = '(' :: r ∧ t = Token.LParen := by
  match input with
  | [] => simp [lparen] at h
  | c :: rest =>
    by_cases hc : c = '('
    · subst hc
      simp only [lparen, Option.some.injEq, Prod.mk.injEq] at h
      exact ⟨by rw [h.1], h.2.symm⟩
    · simp [lparen, hc] at h

/-- Inversion of `rparen`. -/
theorem rparen_inv {input r : Str} {t : Token} (h : rparen input = some (r, t)) :
    input = ')' :: r ∧ t = Token.RParen := by
  match input with
  | [] => simp [rparen] at h
  | c :: rest =>
    by_cases hc : c = ')'
    · subst hc
      simp only [rparen, Option.some.injEq, Prod.mk.injEq] at h
      exact ⟨by rw [h.1], h.2.symm⟩
    · simp [rparen, hc] at h

/-- Inversion of `token`: one of the four categories matched at the
whitespace-trimmed cursor. -/
theorem token_inv {input r : Str} {t : Token} (h : token input = some (r, t)) :
    ident (whitespace input) = some (r, t) ∨ number (whitespace input) = some (r, t) ∨
      lparen (whitespace input) = some (r, t) ∨ rparen (whitespace input) = some (r, t) := by
  unfold token at h
  match h1 : ident (whitespace input) with
  | some res => rw [h1] at h; exact Or.inl h
  | none =>
    rw [h1] at h
    match h2 : number (whitespace input) with
    | some res => rw [h2] at h; exact Or.inr (Or.inl h)
    | none =>
      rw [h2] at h
      match h3 : lparen (whitespace input) with
      | some res => rw [h3] at h; exact Or.inr (Or.inr (Or.inl h))
      | none =>
        rw [h3] at h
        match h4 : rparen (whitespace input) with
        | some res => rw [h4] at h; exact Or.inr (Or.inr (Or.inr h))
        | none => rw [h4] at h; exact absurd h (by simp)

/-- Every successful category match returns a strict suffix of its input. -/
theorem ident_suffix {input r : Str} {t : Token} (h : ident input = some (r, t)) :
    r <:+ input ∧ r.length < input.length := by
  obtain ⟨c, rest, hin, _, hr, _⟩ := ident_inv h
  subst hin; subst hr
  refine ⟨(List.dropWhile_suffix _).trans (List.suffix_cons c rest), ?_⟩
  have := (List.dropWhile_suffix (l := rest) isIdentCont).length_le
  simp only [List.length_cons]
  omega

theorem number_suffix {input r : Str} {t : Token} (h : number input = some (r, t)) :
    r <:+ input ∧ r.length < input.length := by
  obtain ⟨c, rest, v, hin, _, _, hr, _⟩ := number_inv h
  subst hin; subst hr
  refine ⟨(List.dropWhile_suffix _).trans (List.suffix_cons c rest), ?_⟩
  have := (List.dropWhile_suffix (l := rest) isNumCont).length_le
  simp only [List.length_cons]
  omega

theorem lparen_suffix {input r : Str} {t : Token} (h : lparen input = some (r, t)) :
    r <:+ input ∧ r.length < input.length := by
  obtain ⟨hin, _⟩ := lparen_inv h
  subst hin
  exact ⟨List.suffix_cons _ _, by simp⟩

theorem rparen_suffix {input r : Str} {t : Token} (h : rparen input = some (r, t)) :
    r <:+ input ∧ r.length < input.length := by
  obtain ⟨hin, _⟩ := rparen_inv h
  subst hin
  exact ⟨List.suffix_cons _ _, by simp⟩

/-- A successful `token` returns a strict suffix of its input: the cursor
invariant plus the measure that makes the builder terminate. -/
theorem token_suffix {input r : Str} {t : Token} (h : token input = some (r, t)) :
    r <:+ input ∧ r.length < input.length := by
  have hws : whitespace input <:+ input := whitespace_suffix input
  have step : r <:+ whitespace input ∧ r.length < (whitespace input).length := by
    rcases token_inv h with h' | h' | h' | h'
    · exact ident_suffix h'
    · exact number_suffix h'
    · exact lparen_suffix h'
    · exact rparen_suffix h'
  exact ⟨step.1.trans hws, lt_of_lt_of_le step.2 hws.length_le⟩

theorem token_shrink {input r : Str} {t : Token} (h : token input = some (r, t)) :
    r.length < input.length := (token_suffix h).2

/-! ## The builder loop: fuel adequacy and unfolding equations -/

/-- One-step unfolding of `goF` at positive fuel. -/
theorem goF_succ (n : ℕ) (input : Str) :
    goF (n + 1) input =
      (if input = [] then (input, [])
      else
        match token input with
        | none => (input, [])
        | some (next, Token.RParen) => (next, [])
        | some (next, Token.LParen) =>
          let p := goF n next
          let q := goF n p.1
          (q.1, TokenTree.Tree p.2 :: q.2)
        | some (next, t) =>
          let q := goF n next
          (q.1, TokenTree.Token t :: q.2)) := rfl

/-- The cursor returned by the builder loop is a suffix of its input,
whatever the fuel. -/
theorem goF_suffix : ∀ (n : ℕ) (input : Str), (goF n input).1 <:+ input := by
  intro n
  induction n with
  | zero => intro input; exact List.suffix_refl input
  | succ n ih =>
    intro input
    rw [goF_succ]
    by_cases hi : input = []
    · simp [hi]
    · simp only [if_neg hi]
      match htok : token input with
      | none => exact List.suffix_refl input
      | some (next, t) =>
        have hs := (token_suffix htok).1
        match t with
        | Token.RParen => exact hs
        | Token.LParen => exact ((ih _).trans (ih _)).trans hs
        | Token.Ident s => exact (ih _).trans hs
        | Token.Number v => exact (ih _).trans hs

theorem goF_cursor_le (n : ℕ) (input : Str) : (goF n input).1.length ≤ input.length :=
  (goF_suffix n input).length_le

/-- Any two sufficient fuels give the same result: `goF` with fuel
`input.length + 1` computes the Rust loop. -/
theorem goF_stable : ∀ (n m : ℕ) (input : Str), input.length < n → input.length < m →
    goF n input = goF m input := by
  intro n
  induction n with
  | zero => intro m input hn _; exact absurd hn (by omega)
  | succ n ih =>
    intro m input hn hm
    match m, hm with
    | m + 1, hm =>
      simp only [goF]
      by_cases hi : input = []
      · simp [hi]
      · simp only [if_neg hi]
        match htok : token input with
        | none => rfl
        | some (next, t) =>
          have hnext : next.length < input.length := token_shrink htok
          match t with
          | Token.RParen => rfl
          | Token.Ident s =>
            have : goF n next = goF m next := ih m next (by omega) (by omega)
            simp only [this]
          | Token.Number v =>
            have : goF n next = goF m next := ih m next (by omega) (by omega)
            simp only [this]
          | Token.LParen =>
            have h1 : goF n next = goF m next := ih m next (by omega) (by omega)
            have h2 : (goF m next).1.length ≤ next.length := goF_cursor_le m next
            have h3 : goF n (goF m next).1 = goF m (goF m next).1 :=
              ih m _ (by omega) (by omega)
            simp only [h1, h3]

theorem go_nil : go [] = ([], []) := rfl

/-- When no unit matches, the loop stops and returns its cursor unchanged. -/
theorem go_none {input : Str} (h : token input = none) : go input = (input, []) := by
  by_cases hi : input = []
  · subst hi; rfl
  · simp only [go, goF, if_neg hi, h]

theorem token_ne_nil {input r : Str} {t : Token} (h : token input = some (r, t)) :
    ¬ input = [] := by
  intro hi; subst hi; rw [token_nil] at h; exact absurd h (by simp)

/-- A `CloseParen` ends the current level: the cursor just past the `)` and
the children accumulated so far are returned. -/
theorem go_rparen {input next : Str} (h : token input = some (next, Token.RParen)) :
    go input = (next, []) := by
  simp only [go, goF, if_neg (token_ne_nil h), h]

/-- An `OpenParen` recurses for the nested tree, then the loop continues from
the cursor the recursive call returned. -/
theorem go_lparen {input next : Str} (h : token input = some (next, Token.LParen)) :
    go input = ((go (go next).1).1, TokenTree.Tree (go next).2 :: (go (go next).1).2) := by
  have hnext : next.length < input.length := token_shrink h
  have e1 : goF input.length next = go next :=
    goF_stable input.length (next.length + 1) next (by omega) (by omega)
  have hcur : (go next).1.length ≤ next.length := goF_cursor_le _ next
  have e2 : goF input.length (go next).1 = go (go next).1 :=
    goF_stable input.length ((go next).1.length + 1) (go next).1 (by omega) (by omega)
  have key : go input = ((goF input.length (goF input.length next).1).1,
      TokenTree.Tree (goF input.length next).2 ::
        (goF input.length (goF input.length next).1).2) := by
    rw [show go input = goF (input.length + 1) input from rfl, goF_succ,
      if_neg (token_ne_nil h), h]
  rw [key, e1, e2]

/-- An identifier token becomes a leaf and the loop continues. -/
theorem go_ident {input next : Str} {s : Str} (h : token input = some (next, Token.Ident s)) :
    go input = ((go next).1, TokenTree.Token (Token.Ident s) :: (go next).2) := by
  have hnext : next.length < input.length := token_shrink h
  have e1 : goF input.length next = go next :=
    goF_stable input.length (next.length + 1) next (by omega) (by omega)
  have key : go input = ((goF input.length next).1,
      TokenTree.Token (Token.Ident s) :: (goF input.length next).2) := by
    rw [show go input = goF (input.length + 1) input from rfl, goF_succ,
      if_neg (token_ne_nil h), h]
  rw [key, e1]

/-- A number token becomes a leaf and the loop continues. -/
theorem go_number {input next : Str} {v : ℚ} (h : token input = some (next, Token.Number v)) :
    go input = ((go next).1, TokenTree.Token (Token.Number v) :: (go next).2) := by
  have hnext : next.length < input.length := token_shrink h
  have e1 : goF input.length next = go next :=
    goF_stable input.length (next.length + 1) next (by omega) (by omega)
  have key : go input = ((goF input.length next).1,
      TokenTree.Token (Token.Number v) :: (goF input.length next).2) := by
    rw [show go input = goF (input.length + 1) input from rfl, goF_succ,
      if_neg (token_ne_nil h), h]
  rw [key, e1]

/-- The cursor returned by `go` is a suffix of the input. -/
theorem go_suffix (input : Str) : (go input).1 <:+ input := goF_suffix _ input

theorem go_cursor_le (input : Str) : (go input).1.length ≤ input.length :=
  (go_suffix input).length_le

/-! ## Word-level lexing lemmas -/

/-- `rest` cannot glue onto a preceding identifier or number word: its first
character (if any) continues neither category.  Holds for `[]` and for
anything starting with a space or a parenthesis. -/
def noGlue (rest : Str) : Prop :=
  ∀ c, rest.head? = some c → isIdentCont c = false ∧ isNumCont c = false

theorem noGlue_nil : noGlue [] := fun _ h => by simp at h

theorem noGlue_space (x : Str) : noGlue (' ' :: x) := by
  intro c h
  simp only [List.head?_cons, Option.some.injEq] at h
  subst h
  exact ⟨by decide, by decide⟩

theorem noGlue_lparen (x : Str) : noGlue ('(' :: x) := by
  intro c h
  simp only [List.head?_cons, Option.some.injEq] at h
  subst h
  exact ⟨by decide, by decide⟩

theorem noGlue_rparen (x : Str) : noGlue (')' :: x) := by
  intro c h
  simp only [List.head?_cons, Option.some.injEq] at h
  subst h
  exact ⟨by decide, by decide⟩

theorem takeWhile_ident_noGlue {R : Str} (h : noGlue R) : R.takeWhile isIdentCont = [] := by
  match R with
  | [] => rfl
  | c :: x => exact List.takeWhile_cons_of_neg (by simp [(h c rfl).1])

theorem dropWhile_ident_noGlue {R : Str} (h : noGlue R) : R.dropWhile isIdentCont = R := by
  match R with
  | [] => rfl
  | c :: x => exact List.dropWhile_cons_of_neg (by simp [(h c rfl).1])

theorem takeWhile_num_noGlue {R : Str} (h : noGlue R) : R.takeWhile isNumCont = [] := by
  match R with
  | [] => rfl
  | c :: x => exact List.takeWhile_cons_of_neg (by simp [(h c rfl).2])

theorem dropWhile_num_noGlue {R : Str} (h : noGlue R) : R.dropWhile isNumCont = R := by
  match R with
  | [] => rfl
  | c :: x => exact List.dropWhile_cons_of_neg (by simp [(h c rfl).2])

/-- A well-formed identifier word: a letter followed by letters and digits
(the strings `[A-Za-z][A-Za-z0-9]*` of the spec). -/
def identWordB (w : Str) : Bool :=
  match w with
  | [] => false
  | c :: cs => isIdentStart c && cs.all isIdentCont

/-- A well-formed number word: a sign, dot or digit followed by dots and
digits, whose whole text the float parser accepts. -/
def numberWordB (w : Str) : Bool :=
  match w with
  | [] => false
  | c :: cs => isNumStart c && cs.all isNumCont && (parseF64 (c :: cs)).isSome

/-- An identifier or number word: the leaf alphabet of the tree builder. -/
def leafWordB (w : Str) : Bool := identWordB w || numberWordB w

/-- The lexical unit a leaf word turns into. -/
def wordToken (w : Str) : Token :=
  match w with
  | [] => Token.Ident []
  | c :: _ => if isIdentStart c then Token.Ident w else Token.Number ((parseF64 w).getD 0)

/-- Lexing an identifier word followed by non-gluing text yields exactly the
`Ident` unit and leaves the rest untouched. -/
theorem token_identWord {w R : Str} (hw : identWordB w = true) (hng : noGlue R) :
    token (w ++ R) = some (R, Token.Ident w) := by
  match w with
  | c :: cs =>
    simp only [identWordB, Bool.and_eq_true, List.all_eq_true] at hw
    obtain ⟨h1, h2⟩ := hw
    have hident : ident (whitespace ((c :: cs) ++ R)) = some (R, Token.Ident (c :: cs)) := by
      rw [List.cons_append, whitespace_cons_of_ne _ (identStart_ne_space h1)]
      simp only [ident, h1, if_true]
      rw [List.takeWhile_append_of_pos h2, List.dropWhile_append_of_pos h2,
        takeWhile_ident_noGlue hng, dropWhile_ident_noGlue hng, List.append_nil]
    simp only [token, hident]

/-- Lexing a number word followed by non-gluing text yields exactly the
`Number` unit and leaves the rest untouched. -/
theorem token_numberWord {w R : Str} (hw : numberWordB w = true) (hng : noGlue R) :
    token (w ++ R) = some (R, wordToken w) := by
  match w with
  | c :: cs =>
    simp only [numberWordB, Bool.and_eq_true, List.all_eq_true] at hw
    obtain ⟨⟨h1, h2⟩, h3⟩ := hw
    obtain ⟨v, hv⟩ := Option.isSome_iff_exists.mp h3
    have hne := numStart_not_identStart h1
    have hws : whitespace ((c :: cs) ++ R) = c :: (cs ++ R) := by
      rw [List.cons_append, whitespace_cons_of_ne _ (numStart_ne_space h1)]
    have hident : ident (whitespace ((c :: cs) ++ R)) = none := by
      rw [hws]; simp [ident, hne]
    have hnumber : number (whitespace ((c :: cs) ++ R)) = some (R, Token.Number v) := by
      rw [hws]
      simp only [number, h1, if_true]
      rw [List.takeWhile_append_of_pos h2, List.dropWhile_append_of_pos h2,
        takeWhile_num_noGlue hng, dropWhile_num_noGlue hng, List.append_nil, hv]
    have hword : wordToken (c :: cs) = Token.Number v := by
      simp [wordToken, hne, hv]
    simp only [token, hident, hnumber, hword]

/-- Lexing at an opening parenthesis yields `LParen` and the cursor just past
it. -/
theorem token_lparen_char (X : Str) : token ('(' :: X) = some (X, Token.LParen) := by
  have hws : whitespace ('(' :: X) = '(' :: X := whitespace_cons_of_ne _ (by decide)
  have h1 : ident ('(' :: X) = none := by
    simp [ident, show isIdentStart '(' = false from by decide]
  have h2 : number ('(' :: X) = none := by
    simp [number, show isNumStart '(' = false from by decide]
  simp only [token, hws, h1, h2, lparen]

/-- Lexing at a closing parenthesis yields `RParen` and the cursor just past
it. -/
theorem token_rparen_char (X : Str) : token (')' :: X) = some (X, Token.RParen) := by
  have hws : whitespace (')' :: X) = ')' :: X := whitespace_cons_of_ne _ (by decide)
  have h1 : ident (')' :: X) = none := by
    simp [ident, show isIdentStart ')' = false from by decide]
  have h2 : number (')' :: X) = none := by
    simp [number, show isNumStart ')' = false from by decide]
  have h3 : lparen (')' :: X) = none := rfl
  simp only [token, hws, h1, h2, h3, rparen]

/-- Leading spaces never change the lexed unit. -/
theorem token_spaces (n : ℕ) (x : Str) : token (List.replicate n ' ' ++ x) = token x := by
  simp only [token, whitespace_spaces]

/-! ## Balanced inputs: forests of parenthesized groups with explicit gaps

An input "consisting solely of balanced parenthesized groups of identifiers
and numbers" is the rendering of a forest of `GItem`s.  Each node carries the
sizes of the whitespace runs around it (`pre` before the node, `cpre` before a
group's closing paren), so the same forest rendered with different gap sizes
is the same token sequence with different inter-token whitespace. -/

inductive GItem where
  | leaf (pre : ℕ) (w : Str)
  | grp (pre : ℕ) (items : List GItem) (cpre : ℕ)

/-- A run of `n` space characters. -/
def spaces (n : ℕ) : Str := List.replicate n ' '

mutual

def renderI : GItem → Str
  | .leaf pre w => spaces pre ++ w
  | .grp pre items cpre => spaces pre ++ '(' :: (renderL items ++ (spaces cpre ++ [')']))

def renderL : List GItem → Str
  | [] => []
  | i :: is => renderI i ++ renderL is

end

/-- Adjacent-item separation: two consecutive leaf words need at least one
space between them (otherwise the greedy lexer would merge them); any other
adjacency is delimited by a parenthesis. -/
def needSep : GItem → GItem → Prop :=
  fun a b =>
    match a, b with
    | .leaf _ _, .leaf p _ => 1 ≤ p
    | _, _ => True

/-- Well-formed item: leaf words are identifier or number words; groups are
made of well-formed, properly separated items. -/
inductive WfI : GItem → Prop where
  | leaf (pre : ℕ) (w : Str) : leafWordB w = true → WfI (.leaf pre w)
  | grp (pre : ℕ) (items : List GItem) (cpre : ℕ) :
      (∀ i ∈ items, WfI i) → List.Chain' needSep items → WfI (.grp pre items cpre)

/-- Well-formed forest (a whole input). -/
def WfL (items : List GItem) : Prop :=
  (∀ i ∈ items, WfI i) ∧ List.Chain' needSep items

mutual

/-- The tree a well-formed item must parse to. -/
def treeOfI : GItem → TokenTree
  | .leaf _ w => TokenTree.Token (wordToken w)
  | .grp _ items _ => TokenTree.Tree (treesOfL items)

def treesOfL : List GItem → List TokenTree
  | [] => []
  | i :: is => treeOfI i :: treesOfL is

end

mutual

/-- Number of identifier/number lexical units in a rendered item. -/
def leavesI : GItem → ℕ
  | .leaf _ _ => 1
  | .grp _ items _ => leavesL items

def leavesL : List GItem → ℕ
  | [] => 0
  | i :: is => leavesI i + leavesL is

end

mutual

/-- Maximum parenthesis-nesting depth of a rendered item. -/
def parenDepthI : GItem → ℕ
  | .leaf _ _ => 0
  | .grp _ items _ => parenDepthL items + 1

def parenDepthL : List GItem → ℕ
  | [] => 0
  | i :: is => max (parenDepthI i) (parenDepthL is)

end

mutual

/-- The item with all whitespace gaps removed: two renderings differ only in
inter-token space runs iff their items erase to the same thing. -/
def eraseI : GItem → GItem
  | .leaf _ w => .leaf 0 w
  | .grp _ items _ => .grp 0 (eraseL items) 0

def eraseL : List GItem → List GItem
  | [] => []
  | i :: is => eraseI i :: eraseL is

end

/-! Measures on the trees the builder returns. -/

mutual

/-- Number of leaves of a tree. -/
def leafCountT : TokenTree → ℕ
  | .Token _ => 1
  | .Tree ts => leafCountL ts

def leafCountL : List TokenTree → ℕ
  | [] => 0
  | t :: ts => leafCountT t + leafCountL ts

end

mutual

/-- Depth of a tree, each `Tree` node counting one. -/
def treeDepth : TokenTree → ℕ
  | .Token _ => 0
  | .Tree ts => treeDepthL ts + 1

def treeDepthL : List TokenTree → ℕ
  | [] => 0
  | t :: ts => max (treeDepth t) (treeDepthL ts)

end

/-- Nesting depth of a returned tree: the root `Tree` is the implicit
whole-input group, so only the groups below it count. -/
def nestingDepth : TokenTree → ℕ
  | .Token _ => 0
  | .Tree ts => treeDepthL ts

mutual

/-- Number of `RParen` units appearing as leaves of a tree (the claim is that
there are none: close-parens are consumed, never stored). -/
def rparenCountT : TokenTree → ℕ
  | .Token Token.RParen => 1
  | .Token _ => 0
  | .Tree ts => rparenCountL ts

def rparenCountL : List TokenTree → ℕ
  | [] => 0
  | t :: ts => rparenCountT t + rparenCountL ts

end

/-! ## The main compositional lemma: parsing a rendered forest -/

theorem wordToken_ident {w : Str} (h : identWordB w = true) : wordToken w = Token.Ident w := by
  match w with
  | [] => simp [identWordB] at h
  | c :: cs =>
    simp only [identWordB, Bool.and_eq_true] at h
    simp [wordToken, h.1]

theorem wordToken_number {w : Str} (h : numberWordB w = true) :
    ∃ v, parseF64 w = some v ∧ wordToken w = Token.Number v := by
  match w with
  | [] => simp [numberWordB] at h
  | c :: cs =>
    simp only [numberWordB, Bool.and_eq_true] at h
    obtain ⟨⟨h1, _⟩, h3⟩ := h
    obtain ⟨v, hv⟩ := Option.isSome_iff_exists.mp h3
    exact ⟨v, hv, by simp [wordToken, numStart_not_identStart h1, hv]⟩

theorem noGlue_spaces_rparen (n : ℕ) (Y : Str) :
    noGlue (List.replicate n ' ' ++ (')' :: Y)) := by
  cases n with
  | zero => simpa using noGlue_rparen Y
  | succ k => rw [List.replicate_succ, List.cons_append]; exact noGlue_space _

/-- The rendering of a forest followed by non-gluing text cannot glue onto a
preceding leaf word, provided a leading leaf of the forest has a space
before it. -/
theorem noGlue_renderL (tail : List GItem) (rest : Str)
    (hsep : ∀ p' w', tail.head? = some (GItem.leaf p' w') → 1 ≤ p')
    (hng : noGlue rest) : noGlue (renderL tail ++ rest) := by
  match tail with
  | [] => simpa [renderL] using hng
  | GItem.leaf p' w' :: is =>
    have h1 : 1 ≤ p' := hsep p' w' rfl
    match p', h1 with
    | p'' + 1, _ =>
      simp only [renderL, renderI, spaces, List.replicate_succ, List.cons_append,
        List.append_assoc]
      exact noGlue_space _
  | GItem.grp p' inner c' :: is =>
    cases p' with
    | zero =>
      simp only [renderL, renderI, spaces, List.replicate_zero, List.nil_append,
        List.cons_append, List.append_assoc]
      exact noGlue_lparen _
    | succ k =>
      simp only [renderL, renderI, spaces, List.replicate_succ, List.cons_append,
        List.append_assoc]
      exact noGlue_space _

theorem sizeOf_tail_lt (i : GItem) (is : List GItem) : sizeOf is < sizeOf (i :: is) := by
  have := List.cons.sizeOf_spec i is
  omega

theorem sizeOf_inner_lt (pre : ℕ) (inner : List GItem) (cpre : ℕ) (is : List GItem) :
    sizeOf inner < sizeOf (GItem.grp pre inner cpre :: is) := by
  have h1 := List.cons.sizeOf_spec (GItem.grp pre inner cpre) is
  have h2 := GItem.grp.sizeOf_spec pre inner cpre
  omega

/-- Parsing a rendered well-formed forest: the builder turns the rendered
items into their expected trees, then continues into whatever follows. -/
theorem go_render_aux : ∀ (N : ℕ) (items : List GItem) (rest : Str), sizeOf items ≤ N →
    (∀ i ∈ items, WfI i) → List.Chain' needSep items → noGlue rest →
    go (renderL items ++ rest) = ((go rest).1, treesOfL items ++ (go rest).2) := by
  intro N
  induction N using Nat.strong_induction_on with
  | _ N ih =>
    intro items rest hsz hwf hsep hng
    match items with
    | [] => simp [renderL, treesOfL]
    | GItem.leaf pre w :: tail =>
      have hWl : WfI (GItem.leaf pre w) := hwf _ (List.mem_cons_self _ _)
      have hw : leafWordB w = true := by cases hWl with | leaf _ _ h => exact h
      obtain ⟨hsep1, hsep2⟩ := List.chain'_cons'.mp hsep
      have hwfT : ∀ i ∈ tail, WfI i := fun i hi => hwf i (List.mem_cons_of_mem _ hi)
      have hngZ : noGlue (renderL tail ++ rest) := by
        apply noGlue_renderL tail rest _ hng
        intro p' w' hhd
        have h := hsep1 (GItem.leaf p' w') (Option.mem_def.mpr hhd)
        simpa [needSep] using h
      have harr : renderL (GItem.leaf pre w :: tail) ++ rest
          = List.replicate pre ' ' ++ (w ++ (renderL tail ++ rest)) := by
        simp [renderL, renderI, spaces, List.append_assoc]
      have htok : token (renderL (GItem.leaf pre w :: tail) ++ rest)
          = some (renderL tail ++ rest, wordToken w) := by
        rw [harr, token_spaces]
        simp only [leafWordB, Bool.or_eq_true] at hw
        rcases hw with hid | hnum
        · rw [wordToken_ident hid]; exact token_identWord hid hngZ
        · exact token_numberWord hnum hngZ
      have hIHtail : go (renderL tail ++ rest) = ((go rest).1, treesOfL tail ++ (go rest).2) :=
        ih (sizeOf tail) (by have := sizeOf_tail_lt (GItem.leaf pre w) tail; omega)
          tail rest le_rfl hwfT hsep2 hng
      simp only [leafWordB, Bool.or_eq_true] at hw
      rcases hw with hid | hnum
      · rw [wordToken_ident hid] at htok
        rw [go_ident htok, hIHtail]
        simp [treesOfL, treeOfI, wordToken_ident hid]
      · obtain ⟨v, _, hwt⟩ := wordToken_number hnum
        rw [hwt] at htok
        rw [go_number htok, hIHtail]
        simp [treesOfL, treeOfI, hwt]
    | GItem.grp pre inner cpre :: tail =>
      have hWg : WfI (GItem.grp pre inner cpre) := hwf _ (List.mem_cons_self _ _)
      obtain ⟨hwfI, hsepI⟩ : (∀ i ∈ inner, WfI i) ∧ List.Chain' needSep inner := by
        cases hWg with | grp _ _ _ h1 h2 => exact ⟨h1, h2⟩
      obtain ⟨_, hsep2⟩ := List.chain'_cons'.mp hsep
      have hwfT : ∀ i ∈ tail, WfI i := fun i hi => hwf i (List.mem_cons_of_mem _ hi)
      have harr : renderL (GItem.grp pre inner cpre :: tail) ++ rest
          = List.replicate pre ' ' ++ ('(' ::
              (renderL inner ++ (List.replicate cpre ' ' ++ (')' :: (renderL tail ++ rest))))) := by
        simp [renderL, renderI, spaces, List.append_assoc]
      have htok : token (renderL (GItem.grp pre inner cpre :: tail) ++ rest)
          = some (renderL inner ++ (List.replicate cpre ' ' ++ (')' :: (renderL tail ++ rest))),
              Token.LParen) := by
        rw [harr, token_spaces, token_lparen_char]
      have htok1 : token (List.replicate cpre ' ' ++ (')' :: (renderL tail ++ rest)))
          = some (renderL tail ++ rest, Token.RParen) := by
        rw [token_spaces, token_rparen_char]
      have hX : go (renderL inner ++ (List.replicate cpre ' ' ++ (')' :: (renderL tail ++ rest))))
          = (renderL tail ++ rest, treesOfL inner) := by
        have hng1 : noGlue (List.replicate cpre ' ' ++ (')' :: (renderL tail ++ rest))) :=
          noGlue_spaces_rparen _ _
        have hIH1 := ih (sizeOf inner)
          (by have := sizeOf_inner_lt pre inner cpre tail; omega)
          inner (List.replicate cpre ' ' ++ (')' :: (renderL tail ++ rest))) le_rfl
          hwfI hsepI hng1
        rw [hIH1, go_rparen htok1]
        simp
      have hIHtail : go (renderL tail ++ rest) = ((go rest).1, treesOfL tail ++ (go rest).2) :=
        ih (sizeOf tail) (by have := sizeOf_tail_lt (GItem.grp pre inner cpre) tail; omega)
          tail rest le_rfl hwfT hsep2 hng
      rw [go_lparen htok, hX]
      simp only [hIHtail]
      simp [treesOfL, treeOfI]

/-- Parsing the rendering of a well-formed forest: the cursor is fully
consumed and the result is the expected tree, one child per item. -/
theorem source_render (items : List GItem) (hwf : WfL items) :
    source (renderL items) = ([], TokenTree.Tree (treesOfL items)) := by
  have h := go_render_aux (sizeOf items) items [] le_rfl hwf.1 hwf.2 noGlue_nil
  rw [List.append_nil] at h
  simp [source, h, go_nil]

/-! ## Measures of the expected trees -/

theorem sizeOf_head_lt (i : GItem) (is : List GItem) : sizeOf i < sizeOf (i :: is) := by
  have := List.cons.sizeOf_spec i is
  omega

theorem sizeOf_grp_items_lt (pre : ℕ) (items : List GItem) (cpre : ℕ) :
    sizeOf items < sizeOf (GItem.grp pre items cpre) := by
  have := GItem.grp.sizeOf_spec pre items cpre
  omega

theorem treeOf_measures_aux : ∀ N : ℕ,
    (∀ i : GItem, sizeOf i ≤ N →
      leafCountT (treeOfI i) = leavesI i ∧ treeDepth (treeOfI i) = parenDepthI i) ∧
    (∀ l : List GItem, sizeOf l ≤ N →
      leafCountL (treesOfL l) = leavesL l ∧ treeDepthL (treesOfL l) = parenDepthL l) := by
  intro N
  induction N using Nat.strong_induction_on with
  | _ N ih =>
    constructor
    · intro i hsz
      match i with
      | GItem.leaf p w =>
        simp [treeOfI, leafCountT, leavesI, treeDepth, parenDepthI]
      | GItem.grp p items c =>
        have hlt := sizeOf_grp_items_lt p items c
        have h := (ih (sizeOf items) (by omega)).2 items le_rfl
        simp [treeOfI, leafCountT, leavesI, treeDepth, parenDepthI, h.1, h.2]
    · intro l hsz
      match l with
      | [] => simp [treesOfL, leafCountL, leavesL, treeDepthL, parenDepthL]
      | i :: is =>
        have hlt1 := sizeOf_head_lt i is
        have hlt2 := sizeOf_tail_lt i is
        have h1 := (ih (sizeOf i) (by omega)).1 i le_rfl
        have h2 := (ih (sizeOf is) (by omega)).2 is le_rfl
        simp [treesOfL, leafCountL, leavesL, treeDepthL, parenDepthL, h1.1, h1.2, h2.1, h2.2]

theorem treesOfL_leafCount (l : List GItem) : leafCountL (treesOfL l) = leavesL l :=
  ((treeOf_measures_aux (sizeOf l)).2 l le_rfl).1

theorem treesOfL_depth (l : List GItem) : treeDepthL (treesOfL l) = parenDepthL l :=
  ((treeOf_measures_aux (sizeOf l)).2 l le_rfl).2

/-- The expected tree ignores the whitespace gaps entirely. -/
theorem treesOf_erase_aux : ∀ N : ℕ,
    (∀ i : GItem, sizeOf i ≤ N → treeOfI (eraseI i) = treeOfI i) ∧
    (∀ l : List GItem, sizeOf l ≤ N → treesOfL (eraseL l) = treesOfL l) := by
  intro N
  induction N using Nat.strong_induction_on with
  | _ N ih =>
    constructor
    · intro i hsz
      match i with
      | GItem.leaf p w => simp [eraseI, treeOfI]
      | GItem.grp p items c =>
        have hlt := sizeOf_grp_items_lt p items c
        have h := (ih (sizeOf items) (by omega)).2 items le_rfl
        simp [eraseI, treeOfI, h]
    · intro l hsz
      match l with
      | [] => simp [eraseL, treesOfL]
      | i :: is =>
        have hlt1 := sizeOf_head_lt i is
        have hlt2 := sizeOf_tail_lt i is
        have h1 := (ih (sizeOf i) (by omega)).1 i le_rfl
        have h2 := (ih (sizeOf is) (by omega)).2 is le_rfl
        simp [eraseL, treesOfL, h1, h2]

theorem treesOfL_erase (l : List GItem) : treesOfL (eraseL l) = treesOfL l :=
  (treesOf_erase_aux (sizeOf l)).2 l le_rfl

/-! ## Close-parens never appear in the built tree -/

theorem rparenCount_goF : ∀ (n : ℕ) (input : Str), rparenCountL (goF n input).2 = 0 := by
  intro n
  induction n with
  | zero => intro input; simp [goF, rparenCountL]
  | succ n ih =>
    intro input
    rw [goF_succ]
    by_cases hi : input = []
    · simp [hi, rparenCountL]
    · simp only [if_neg hi]
      match htok : token input with
      | none => simp [rparenCountL]
      | some (next, t) =>
        match t with
        | Token.RParen => simp [rparenCountL]
        | Token.LParen => simp [rparenCountL, rparenCountT, ih]
        | Token.Ident s => simp [rparenCountL, rparenCountT, ih]
        | Token.Number v => simp [rparenCountL, rparenCountT, ih]

/-! ## The stuck-cursor analysis for inputs without close-parens -/

theorem token_rparen_mem {input next : Str} (h : token input = some (next, Token.RParen)) :
    ')' ∈ input := by
  rcases token_inv h with h' | h' | h' | h'
  · obtain ⟨_, _, _, _, _, ht⟩ := ident_inv h'
    exact absurd ht (by simp)
  · obtain ⟨_, _, _, _, _, _, _, ht⟩ := number_inv h'
    exact absurd ht (by simp)
  · obtain ⟨_, ht⟩ := lparen_inv h'
    exact absurd ht (by simp)
  · obtain ⟨hin, _⟩ := rparen_inv h'
    exact (whitespace_suffix input).sublist.mem (hin ▸ List.mem_cons_self ')' _)

/-- On an input with no `)` the loop can only stop by exhaustion or a failed
`token`, never via the `RParen` branch. -/
theorem go_stuck_aux : ∀ (N : ℕ) (input : Str), input.length ≤ N →
    (∀ c ∈ input, ¬ c = ')') →
    (go input).1 = [] ∨ token (go input).1 = none := by
  intro N
  induction N using Nat.strong_induction_on with
  | _ N ih =>
    intro input hsz hnp
    match htok : token input with
    | none => rw [go_none htok]; exact Or.inr htok
    | some (next, t) =>
      have hnext := token_shrink htok
      have hsubnext : ∀ c ∈ next, ¬ c = ')' :=
        fun c hc => hnp c ((token_suffix htok).1.sublist.mem hc)
      match t with
      | Token.RParen =>
        exact absurd (token_rparen_mem htok) (fun hm => hnp _ hm rfl)
      | Token.LParen =>
        rw [go_lparen htok]
        have hcur := go_cursor_le next
        refine ih (go next).1.length (by omega) (go next).1 le_rfl ?_
        exact fun c hc => hsubnext c ((go_suffix next).sublist.mem hc)
      | Token.Ident s =>
        rw [go_ident htok]
        exact ih next.length (by omega) next le_rfl hsubnext
      | Token.Number v =>
        rw [go_number htok]
        exact ih next.length (by omega) next le_rfl hsubnext

theorem go_stuck (input : Str) (h : ∀ c ∈ input, ¬ c = ')') :
    (go input).1 = [] ∨ token (go input).1 = none :=
  go_stuck_aux input.length input le_rfl h

theorem lparen_cons_ne {c : Char} (rest : Str) (h : ¬ c = '(') : lparen (c :: rest) = none := by
  unfold lparen
  split
  · next r heq =>
    injection heq with h1 _
    exact absurd h1 h
  · rfl

theorem rparen_cons_ne {c : Char} (rest : Str) (h : ¬ c = ')') : rparen (c :: rest) = none := by
  unfold rparen
  split
  · next r heq =>
    injection heq with h1 _
    exact absurd h1 h
  · rfl

/-! ## The claims -/

/-- C1: for every input consisting solely of balanced parenthesized groups of
identifiers and numbers (the rendering of a well-formed forest), the tree
returned by `source` has leaf count equal to the number of identifier and
number lexical units of the input, and its nesting depth (the groups below
the implicit whole-input root) equals the maximum parenthesis-nesting depth
of the input. -/
theorem c1_balanced_counts (items : List GItem) (hwf : WfL items) :
    leafCountT (source (renderL items)).2 = leavesL items ∧
    nestingDepth (source (renderL items)).2 = parenDepthL items := by
  rw [source_render items hwf]
  constructor
  · simp [leafCountT, treesOfL_leafCount]
  · simp [nestingDepth, treesOfL_depth]

/-- Witness for C1 at the forest rendering `"(a 1)"`: two leaves, depth one. -/
theorem c1_witness :
    leafCountT (source (renderL [GItem.grp 0 [GItem.leaf 0 ['a'], GItem.leaf 1 ['1']] 0])).2 = 2 ∧
    nestingDepth (source (renderL [GItem.grp 0 [GItem.leaf 0 ['a'], GItem.leaf 1 ['1']] 0])).2 = 1 := by
  have hwf : WfL [GItem.grp 0 [GItem.leaf 0 ['a'], GItem.leaf 1 ['1']] 0] := by
    constructor
    · intro i hi
      simp only [List.mem_singleton] at hi
      subst hi
      refine WfI.grp _ _ _ ?_ (List.chain'_pair.mpr (by simp [needSep]))
      intro j hj
      simp only [List.mem_cons, List.mem_singleton, List.not_mem_nil, or_false] at hj
      rcases hj with h | h <;> subst h <;> exact WfI.leaf _ _ (by decide)
    · exact List.chain'_singleton _
  obtain ⟨h1, h2⟩ := c1_balanced_counts [GItem.grp 0 [GItem.leaf 0 ['a'], GItem.leaf 1 ['1']] 0] hwf
  refine ⟨h1.trans ?_, h2.trans ?_⟩
  · simp [leavesL, leavesI]
  · simp [parenDepthL, parenDepthI]

/-- C2: whenever the lexer hands the builder a `CloseParen`, the builder
returns immediately: the cursor just past the `)` and the children
accumulated so far (none, at the start of a call) as a `Tree`; and no tree
`source` ever returns contains an `RParen` leaf — the close-paren is
consumed, never stored. -/
theorem c2_rparen_terminates :
    (∀ (input next : Str), token input = some (next, Token.RParen) →
      source input = (next, TokenTree.Tree [])) ∧
    (∀ input : Str, rparenCountT (source input).2 = 0) := by
  constructor
  · intro input next h
    simp [source, go_rparen h]
  · intro input
    show rparenCountT (TokenTree.Tree (go input).2) = 0
    rw [show rparenCountT (TokenTree.Tree (go input).2) = rparenCountL (go input).2 from by
      simp [rparenCountT]]
    exact rparenCount_goF (input.length + 1) input

/-- Witness for C2 at the input `") x"` / `"a"`. -/
theorem c2_witness :
    source [')', 'x'] = (['x'], TokenTree.Tree []) ∧ rparenCountT (source ['a']).2 = 0 :=
  ⟨c2_rparen_terminates.1 [')', 'x'] ['x'] (by decide), c2_rparen_terminates.2 ['a']⟩

/-- C3: an open-paren never matched by a close-paren does not make the
builder fail.  Fully general: at any reachable cursor `input` whose next
unit is an `OpenParen` (cursor `X` after it), if the nested level ends
because input is exhausted or the lexer matches nothing — i.e. NOT via the
`CloseParen` branch, which is exactly what "the open-paren is never matched"
means, balanced inner groups after it allowed — then that level returns its
current cursor and accumulated children as a group, and the enclosing level
wraps it: the unterminated group closes implicitly at end of input.  (All
embedded functions are total, so no failure is possible.) -/
theorem c3_unterminated (input X : Str)
    (hlp : token input = some (X, Token.LParen))
    (hend : (go X).1 = [] ∨ token (go X).1 = none) :
    source input = ((source X).1, TokenTree.Tree [(source X).2]) := by
  have hgoM : go (go X).1 = ((go X).1, []) := by
    rcases hend with h1 | h1
    · rw [h1]; exact go_nil
    · exact go_none h1
  simp [source, go_lparen hlp, hgoM]

/-- Witness for C3 at `"(x (y z)"` (missing close over a balanced inner
group) and at `"(b"` (the cursor the builder reaches inside `"a(b"`). -/
theorem c3_witness :
    (source "(x (y z)".toList
      = ((source "x (y z)".toList).1, TokenTree.Tree [(source "x (y z)".toList).2])) ∧
    (source "(b".toList
      = ((source "b".toList).1, TokenTree.Tree [(source "b".toList).2])) :=
  ⟨c3_unterminated "(x (y z)".toList "x (y z)".toList (by decide) (Or.inl (by decide)),
   c3_unterminated "(b".toList "b".toList (by decide) (Or.inl (by decide))⟩

/-- C4 as stated is false: on an all-spaces input no unit matches, `token`
returns a bare `none` carrying no cursor, and `source` returns its cursor
unchanged — the leading run of spaces is NOT consumed, so the returned
cursor differs from the whitespace-trimmed one. -/
theorem c4_counterexample : ¬ (source [' ', ' ']).1 = whitespace [' ', ' '] := by decide

/-- C4 amended: when no unit matches, the no-match signal carries no cursor
and `source` returns its cursor exactly as it was (any leading whitespace
included) together with the accumulated children. -/
theorem c4_amended_no_match (input : Str) (h : token input = none) :
    source input = (input, TokenTree.Tree []) := by
  simp [source, go_none h]

/-- Witness for the amended C4 at the all-spaces input `"  "`. -/
theorem c4_witness : source [' ', ' '] = ([' ', ' '], TokenTree.Tree []) :=
  c4_amended_no_match [' ', ' '] (by decide)

/-- C5 as stated is false: removing the space run between the tokens of
`"a 1"` yields `"a1"`, which the greedy identifier lexer reads as the single
identifier `a1`, changing the tree. -/
theorem c5_counterexample : ¬ (source ['a', ' ', '1']).2 = (source ['a', '1']).2 := by
  intro h
  rw [show (source ['a', ' ', '1']).2 = TokenTree.Tree [TokenTree.Token (Token.Ident ['a']),
      TokenTree.Token (Token.Number ((1 : ℕ) : ℚ))] from rfl,
    show (source ['a', '1']).2 = TokenTree.Tree [TokenTree.Token (Token.Ident ['a', '1'])]
      from rfl] at h
  injection h with h
  simp at h

/-- C5 amended: resizing the whitespace runs between tokens — keeping at
least one space between adjacent identifier/number units — never changes the
tree: two well-formed forests that erase to the same gap-free forest render
to inputs with the same parse tree. -/
theorem c5_whitespace_invariance (F G : List GItem) (hF : WfL F) (hG : WfL G)
    (h : eraseL F = eraseL G) :
    (source (renderL F)).2 = (source (renderL G)).2 := by
  rw [source_render F hF, source_render G hG]
  have ht : treesOfL F = treesOfL G := by
    rw [← treesOfL_erase F, h, treesOfL_erase G]
  simp [ht]

/-- Witness for the amended C5: `"a b"` and `"a   b"` parse to the same
tree. -/
theorem c5_witness :
    (source (renderL [GItem.leaf 0 ['a'], GItem.leaf 1 ['b']])).2 =
      (source (renderL [GItem.leaf 0 ['a'], GItem.leaf 3 ['b']])).2 := by
  have wfF : WfL [GItem.leaf 0 ['a'], GItem.leaf 1 ['b']] := by
    constructor
    · intro i hi
      simp only [List.mem_cons, List.mem_singleton, List.not_mem_nil, or_false] at hi
      rcases hi with h | h <;> subst h <;> exact WfI.leaf _ _ (by decide)
    · exact List.chain'_pair.mpr (by simp [needSep])
  have wfG : WfL [GItem.leaf 0 ['a'], GItem.leaf 3 ['b']] := by
    constructor
    · intro i hi
      simp only [List.mem_cons, List.mem_singleton, List.not_mem_nil, or_false] at hi
      rcases hi with h | h <;> subst h <;> exact WfI.leaf _ _ (by decide)
    · exact List.chain'_pair.mpr (by simp [needSep])
  exact c5_whitespace_invariance _ _ wfF wfG (by simp [eraseL, eraseI])

/-- C6: at a whitespace-trimmed position starting with `+`, `-`, `.` or a
digit, the number category greedily consumes that character and the
following run of digits and dots, succeeding exactly when the captured
substring parses as a float (`Option.map` form); when the parse fails the
match consumes nothing, and the remaining categories — `lparen`, `rparen`,
each tried at the same whitespace-trimmed position — also fail (their
characters are disjoint from number-start characters), so `token` returns
`none` without error. -/
theorem c6_number_failopen (input : Str) (c : Char) (rest : Str)
    (hws : whitespace input = c :: rest) (hc : isNumStart c = true) :
    number (whitespace input) = (parseF64 (c :: rest.takeWhile isNumCont)).map
        (fun v => (rest.dropWhile isNumCont, Token.Number v)) ∧
    (number (whitespace input) = none →
      ident (whitespace input) = none ∧ lparen (whitespace input) = none ∧
      rparen (whitespace input) = none ∧ token input = none) := by
  have hnum : number (whitespace input) = (parseF64 (c :: rest.takeWhile isNumCont)).map
      (fun v => (rest.dropWhile isNumCont, Token.Number v)) := by
    rw [hws]
    simp only [number, hc, if_true]
    match hp : parseF64 (c :: rest.takeWhile isNumCont) with
    | some v => simp
    | none => simp
  refine ⟨hnum, fun hnone => ?_⟩
  have hident : ident (whitespace input) = none := by
    rw [hws]; simp [ident, numStart_not_identStart hc]
  have hlp : lparen (whitespace input) = none := by
    rw [hws]
    refine lparen_cons_ne rest fun he => ?_
    subst he; exact absurd hc (by decide)
  have hrp : rparen (whitespace input) = none := by
    rw [hws]
    refine rparen_cons_ne rest fun he => ?_
    subst he; exact absurd hc (by decide)
  exact ⟨hident, hlp, hrp, by simp [token, hident, hnone, hlp, hrp]⟩

/-- Witness for C6 at `"1.2.3"`: the capture `1.2.3` has two dots, the float
parse fails, and no token is produced. -/
theorem c6_witness : token ['1', '.', '2', '.', '3'] = none :=
  ((c6_number_failopen ['1', '.', '2', '.', '3'] '1' ['.', '2', '.', '3'] rfl
    (by decide)).2 (by decide)).2.2.2

/-- C7: on the input `"(123  456 world)"`, `source` returns a single
top-level group containing one group whose children are `Number 123`,
`Number 456` and `Ident "world"` in order, with no remaining input
(here `((123 : ℕ) : ℚ)` is the exact value of the binary64 literal
`123.0`). -/
theorem c7_scenario : source "(123  456 world)".toList =
    ([], TokenTree.Tree [TokenTree.Tree
      [TokenTree.Token (Token.Number ((123 : ℕ) : ℚ)),
       TokenTree.Token (Token.Number ((456 : ℕ) : ℚ)),
       TokenTree.Token (Token.Ident "world".toList)]]) := rfl

/-- C8: the cursor is always a suffix of the input: every lexer function and
the builder return a suffix of the string they were given. -/
theorem c8_cursor_suffix :
    (∀ (input r : Str) (t : Token), ident input = some (r, t) → r <:+ input) ∧
    (∀ (input r : Str) (t : Token), number input = some (r, t) → r <:+ input) ∧
    (∀ (input r : Str) (t : Token), lparen input = some (r, t) → r <:+ input) ∧
    (∀ (input r : Str) (t : Token), rparen input = some (r, t) → r <:+ input) ∧
    (∀ (input r : Str) (t : Token), token input = some (r, t) → r <:+ input) ∧
    (∀ input : Str, (source input).1 <:+ input) :=
  ⟨fun _ _ _ h => (ident_suffix h).1,
   fun _ _ _ h => (number_suffix h).1,
   fun _ _ _ h => (lparen_suffix h).1,
   fun _ _ _ h => (rparen_suffix h).1,
   fun _ _ _ h => (token_suffix h).1,
   fun input => go_suffix input⟩

/-- Witness for C8, one concrete instance per component. -/
theorem c8_witness :
    ([] : Str) <:+ ['a'] ∧ ([] : Str) <:+ ['1'] ∧ (['x'] : Str) <:+ ['(', 'x'] ∧
    ([] : Str) <:+ [')'] ∧ ([] : Str) <:+ [' ', 'a'] ∧ (source ['(', 'b']).1 <:+ ['(', 'b'] :=
  ⟨c8_cursor_suffix.1 ['a'] [] (Token.Ident ['a']) (by decide),
   c8_cursor_suffix.2.1 ['1'] [] (Token.Number ((1 : ℕ) : ℚ)) (by decide),
   c8_cursor_suffix.2.2.1 ['(', 'x'] ['x'] Token.LParen (by decide),
   c8_cursor_suffix.2.2.2.1 [')'] [] Token.RParen (by decide),
   c8_cursor_suffix.2.2.2.2.1 [' ', 'a'] [] (Token.Ident ['a']) (by decide),
   c8_cursor_suffix.2.2.2.2.2 ['(', 'b']⟩

/-- C9: `source` terminates on every finite input: every successful `token`
strictly shortens the cursor (the well-founded measure of the loop and of
the nested recursion), and on the deliberately unbalanced input
`"()())))((()))"` parsing completes and returns a value (a stray top-level
close-paren abandons the remainder). -/
theorem c9_termination :
    (∀ (input next : Str) (t : Token), token input = some (next, t) →
      next.length < input.length) ∧
    source "()())))((()))".toList =
      ("))((()))".toList, TokenTree.Tree [TokenTree.Tree [], TokenTree.Tree []]) :=
  ⟨fun _ _ _ h => token_shrink h, rfl⟩

/-- Witness for C9: lexing `"a"` consumes one character. -/
theorem c9_witness : (([] : Str)).length < ((['a'] : Str)).length :=
  c9_termination.1 ['a'] [] (Token.Ident ['a']) (by decide)

/-- C10: on the empty input `source` returns the empty cursor and a group
with no children. -/
theorem c10_empty : source [] = ([], TokenTree.Tree []) := rfl
